import Mathlib

/-!
Verification of the EchoNote asynchronous transcription pipeline.

This file gives a shallow embedding of the pipeline's core algorithms and
proves the specification claims about them:

* `backend/audio_chunker.py`: `chunk_audio` (time-based segmentation) and
  `chunk_audio_by_diarization` (speaker-aware segmentation with sub-chunking);
* `backend/transcription_merger.py`: `merge_transcriptions`,
  `group_by_speaker`, and the timestamp formatters;
* `backend/tasks.py`: `extract_transcription_text` (inference response
  normalization), the per-chunk transcription loop with its
  all-chunks-failed promotion, and the sequence of job-record writes
  (status / progress / text / error_message) performed by
  `transcribe_audio_task` and `process_transcription_async`.

Modelling conventions:

* Python strings are modelled as `List Char` (`PyStr`); `str.strip()` is
  `pyStrip` (dropping ASCII whitespace from both ends).
* Python floats holding second offsets are modelled as exact rationals `ℚ`;
  Python's float floor division `//` is `pyFloor` and `int(...)` truncation
  is `pyInt`.  All concrete inputs used in counterexamples are chosen so
  that the corresponding IEEE-754 computations are exact, so the rational
  model agrees with the float semantics at those points.
* Audio byte buffers are represented by their total duration in
  milliseconds; an extracted slice `audio[a:b]` is represented by its
  millisecond bounds, which is the only information the slicing uses.
* Database commits are modelled as an explicit list of record states, in
  commit order.
-/

namespace EchoNote

/-- Python strings as lists of characters. -/
abbrev PyStr := List Char

/-- ASCII whitespace recognized by Python's `str.strip()` / `str.isspace()`. -/
def isPySpace (c : Char) : Bool :=
  c == ' ' || c == '\t' || c == '\n' || c == '\r' || c == '\x0b' || c == '\x0c'

/-- Embedding of Python `str.strip()`: remove leading and trailing whitespace. -/
def pyStrip (s : PyStr) : PyStr :=
  ((s.dropWhile isPySpace).reverse.dropWhile isPySpace).reverse

/-- Embedding of Python `sep.join(xs)` for a one-character separator. -/
def joinSep (sep : Char) : List PyStr → PyStr
  | [] => []
  | [t] => t
  | t :: u :: us => t ++ sep :: joinSep sep (u :: us)

/-- Embedding of Python `' '.join(xs)`. -/
def joinSpace (xs : List PyStr) : PyStr := joinSep ' ' xs

/-- Python float floor division `q // 1` semantics on exact rationals:
the floor, computed as integer division of numerator by denominator. -/
def pyFloor (q : ℚ) : ℤ := q.num / (q.den : ℤ)

/-- Python `int(q)` truncates toward zero. -/
def pyInt (q : ℚ) : ℤ := if 0 ≤ q then pyFloor q else -pyFloor (-q)

theorem pyFloor_eq_floor (q : ℚ) : pyFloor q = ⌊q⌋ := Rat.floor_def.symm

/-! ## Audio chunker (`backend/audio_chunker.py`) -/

/-- A chunk produced by `chunk_audio`.  The exported WAV bytes are
represented by the millisecond slice bounds `audio[sliceStartMs:sliceEndMs]`
taken from the source audio; `startSec`/`endSec` are the reported offsets
`start_ms / 1000.0` and `end_ms / 1000.0`. -/
structure AudioChunk where
  sliceStartMs : ℕ
  sliceEndMs : ℕ
  startSec : ℚ
  endSec : ℚ
deriving DecidableEq, Repr

/-- Embedding of `chunk_audio(audio_bytes, chunk_duration_seconds)`.  The
audio is represented by its total duration in milliseconds (`len(audio)`). -/
def chunk_audio (totalMs : ℕ) (chunkDurationSeconds : ℕ) : List AudioChunk :=
  let durationSeconds : ℚ := (totalMs : ℚ) / 1000
  if durationSeconds ≤ (chunkDurationSeconds : ℚ) then
    [⟨0, totalMs, 0, durationSeconds⟩]
  else
    let chunkDurationMs := chunkDurationSeconds * 1000
    let numChunks := (totalMs + chunkDurationMs - 1) / chunkDurationMs
    (List.range numChunks).map fun i =>
      let startMs := i * chunkDurationMs
      let endMs := min (startMs + chunkDurationMs) totalMs
      ⟨startMs, endMs, (startMs : ℚ) / 1000, (endMs : ℚ) / 1000⟩

/-- A diarization segment: dict with keys `speaker`, `start`, `end`.
`endTime` models the `end` key. -/
structure DiarSegment where
  speaker : PyStr
  start : ℚ
  endTime : ℚ
deriving DecidableEq, Repr

/-- A chunk produced by `chunk_audio_by_diarization`: slice bounds
`int(start_seconds * 1000)` / `int(end_seconds * 1000)` stand for the
exported bytes, together with the reported offsets and speaker label. -/
structure DiarChunk where
  sliceStartMs : ℤ
  sliceEndMs : ℤ
  startSec : ℚ
  endSec : ℚ
  speaker : PyStr
deriving DecidableEq, Repr

/-- Embedding of `chunk_audio_by_diarization(audio_bytes,
diarization_results, max_chunk_duration)`.  Segments are processed in the
order given; a segment whose duration exceeds `max_chunk_duration` is split
into `int((duration + max - 1) // max)` equal sub-chunks. -/
def chunk_audio_by_diarization (maxChunkDuration : ℕ)
    (diarizationResults : List DiarSegment) : List DiarChunk :=
  diarizationResults.flatMap fun seg =>
    let segmentDuration := seg.endTime - seg.start
    if segmentDuration ≤ (maxChunkDuration : ℚ) then
      [⟨pyInt (seg.start * 1000), pyInt (seg.endTime * 1000),
        seg.start, seg.endTime, seg.speaker⟩]
    else
      let numSubChunks :=
        (pyFloor ((segmentDuration + (maxChunkDuration : ℚ) - 1) / (maxChunkDuration : ℚ))).toNat
      let subChunkDuration := segmentDuration / (numSubChunks : ℚ)
      (List.range numSubChunks).map fun subIdx =>
        let subStart := seg.start + (subIdx : ℚ) * subChunkDuration
        let subEnd := min (seg.start + ((subIdx : ℚ) + 1) * subChunkDuration) seg.endTime
        ⟨pyInt (subStart * 1000), pyInt (subEnd * 1000), subStart, subEnd, seg.speaker⟩

/-- Embedding of the caller-side sort in `process_transcription_async`
(`tasks.py`): `sorted(diarization_results, key=lambda x: x['start'])`.
Python's sort is stable; insertion sort with the reflexive total order
`start ≤ start` is likewise stable. -/
def sortSegmentsByStart (segs : List DiarSegment) : List DiarSegment :=
  List.insertionSort (fun a b => a.start ≤ b.start) segs

/-- The diarization branch of the pipeline, as composed in
`process_transcription_async`: sort the diarization output chronologically,
then chunk it. -/
def pipelineDiarizationChunks (maxChunkDuration : ℕ)
    (segs : List DiarSegment) : List DiarChunk :=
  chunk_audio_by_diarization maxChunkDuration (sortSegmentsByStart segs)

/-! ## Transcription merger (`backend/transcription_merger.py`) -/

/-- Helper for Python's `f"{z:02d}"`: decimal digits padded to width 2. -/
def pad2 (z : ℤ) : PyStr :=
  if z < 0 then '-' :: Nat.toDigits 10 (-z).toNat
  else
    let d := Nat.toDigits 10 z.toNat
    if d.length < 2 then '0' :: d else d

/-- The inner `format_time` of `format_timestamp_range`:
`minutes = int(seconds // 60)`, `secs = int(seconds % 60)`,
rendered as `MM:SS`. -/
def format_time (seconds : ℚ) : PyStr :=
  let minutes : ℤ := pyFloor (seconds / 60)
  let secs : ℤ := pyInt (seconds - 60 * (pyFloor (seconds / 60) : ℚ))
  pad2 minutes ++ ':' :: pad2 secs

/-- Embedding of `format_timestamp_range(start_seconds, end_seconds)`. -/
def format_timestamp_range (startSeconds endSeconds : ℚ) : PyStr :=
  '[' :: format_time startSeconds ++ ' ' :: '-' :: ' ' :: format_time endSeconds ++ [']']

/-- Embedding of `format_timestamp(seconds)`. -/
def format_timestamp (seconds : ℚ) : PyStr :=
  '[' :: format_time seconds ++ [']']

/-- A transcript chunk consumed by the merger: dict with a `text` field,
optional `start` / `end` (modelled by `start` / `endTime`) and an optional
`speaker` field. -/
structure MergeChunk where
  text : PyStr
  start : Option ℚ
  endTime : Option ℚ
  speaker : Option PyStr
deriving DecidableEq, Repr

/-- One iteration of the `merge_transcriptions` loop: the optional line
contributed by a chunk.  A chunk whose stripped text is empty contributes
nothing; otherwise the line is assembled from the optional timestamp
prefix, the optional `SPEAKER:` label and the stripped text, joined by
single spaces when any prefix is requested. -/
def mergeLine (includeTimestamps includeSpeakers : Bool) (c : MergeChunk) :
    Option PyStr :=
  let text := pyStrip c.text
  if text = [] then none
  else
    let parts : List PyStr :=
      (if includeTimestamps then
        [format_timestamp_range (c.start.getD 0) (c.endTime.getD 0)]
      else []) ++
      (if includeSpeakers then
        match c.speaker with
        | some sp => [sp ++ [':']]
        | none => []
      else []) ++
      [text]
    some (if includeTimestamps || includeSpeakers then joinSpace parts else text)

/-- Embedding of `merge_transcriptions(chunks, include_timestamps,
include_speakers)`. -/
def merge_transcriptions (chunks : List MergeChunk)
    (includeTimestamps includeSpeakers : Bool) : PyStr :=
  if chunks = [] then []
  else
    let mergedLines := chunks.filterMap (mergeLine includeTimestamps includeSpeakers)
    if includeTimestamps || includeSpeakers then joinSep '\n' mergedLines
    else joinSpace mergedLines

/-- Flushing the accumulated group in `group_by_speaker`
(`if current_texts: grouped.append(...)`). -/
def gbsFlush (grouped : List MergeChunk) (curSpeaker : Option PyStr)
    (curTexts : List PyStr) (curStart curEnd : Option ℚ) : List MergeChunk :=
  if curTexts = [] then grouped
  else grouped ++ [⟨joinSpace curTexts, curStart, curEnd, curSpeaker⟩]

/-- The loop of `group_by_speaker`, with the mutable state
(`grouped`, `current_speaker`, `current_texts`, `current_start`,
`current_end`) made explicit. -/
def gbsLoop (grouped : List MergeChunk) (curSpeaker : Option PyStr)
    (curTexts : List PyStr) (curStart curEnd : Option ℚ) :
    List MergeChunk → List MergeChunk
  | [] => gbsFlush grouped curSpeaker curTexts curStart curEnd
  | c :: cs =>
    let text := pyStrip c.text
    if text = [] then gbsLoop grouped curSpeaker curTexts curStart curEnd cs
    else if c.speaker = curSpeaker then
      gbsLoop grouped curSpeaker (curTexts ++ [text]) curStart
        (match c.endTime with | some e => some e | none => curEnd) cs
    else
      gbsLoop (gbsFlush grouped curSpeaker curTexts curStart curEnd)
        c.speaker [text] c.start c.endTime cs

/-- Embedding of `group_by_speaker(chunks)`. -/
def group_by_speaker (chunks : List MergeChunk) : List MergeChunk :=
  if chunks = [] then [] else gbsLoop [] none [] none none chunks

/-- Specification-side collapse of an open speaker run, following the
amended claim C5: a maximal run of consecutive chunks with the same
`speaker` label becomes one group whose text is the stripped texts joined
by single spaces, whose `start` is the first chunk's start and whose `end`
is the last chunk's end. -/
def specGo (sp : Option PyStr) (acc : PyStr) (st en : Option ℚ) :
    List MergeChunk → List MergeChunk
  | [] => [⟨acc, st, en, sp⟩]
  | c :: cs =>
    if c.speaker = sp then specGo sp (acc ++ ' ' :: pyStrip c.text) st c.endTime cs
    else ⟨acc, st, en, sp⟩ :: specGo c.speaker (pyStrip c.text) c.start c.endTime cs

/-- Specification-side speaker grouping: collapse each maximal run of
consecutive same-speaker chunks. -/
def specCollapse : List MergeChunk → List MergeChunk
  | [] => []
  | c :: cs => specGo c.speaker (pyStrip c.text) c.start c.endTime cs

/-! ## JSON parsing (Python `json.loads`, used by `extract_transcription_text`) -/

/-- JSON whitespace accepted between tokens by Python's `json` module. -/
def isJsonWs (c : Char) : Bool :=
  c == ' ' || c == '\t' || c == '\n' || c == '\r'

/-- Skip JSON inter-token whitespace. -/
def skipWs (s : List Char) : List Char := s.dropWhile isJsonWs

/-- A parsed JSON value.  Numbers keep their source lexeme (the pipeline
never does arithmetic on them; only their identity matters here). -/
inductive JsonValue where
  | null
  | bool (b : Bool)
  | num (lexeme : List Char)
  | str (s : List Char)
  | arr (items : List JsonValue)
  | obj (fields : List (List Char × JsonValue))
deriving BEq, Repr

/-- Value of one hexadecimal digit. -/
def hexVal (c : Char) : Option ℕ :=
  if '0' ≤ c ∧ c ≤ '9' then some (c.toNat - '0'.toNat)
  else if 'a' ≤ c ∧ c ≤ 'f' then some (c.toNat - 'a'.toNat + 10)
  else if 'A' ≤ c ∧ c ≤ 'F' then some (c.toNat - 'A'.toNat + 10)
  else none

/-- Four hex digits, as in a `\uXXXX` escape. -/
def parseHex4 : List Char → Option (ℕ × List Char)
  | a :: b :: c :: d :: rest =>
    match hexVal a, hexVal b, hexVal c, hexVal d with
    | some x, some y, some z, some w => some ((((x * 16 + y) * 16 + z) * 16 + w), rest)
    | _, _, _, _ => none
  | _ => none

/-- Body of a JSON string after the opening quote: returns the decoded
content and the input following the closing quote.  Escapes follow the JSON
grammar (including surrogate-pair `\uXXXX` decoding); unescaped control
characters are rejected, as in Python's strict mode. -/
def parseStringBody : ℕ → List Char → Option (List Char × List Char)
  | 0, _ => none
  | _, [] => none
  | fuel + 1, c :: rest =>
    if c = '"' then some ([], rest)
    else if c = '\\' then
      match rest with
      | [] => none
      | e :: rest2 =>
        let cont := fun (ch : Char) (r : List Char) =>
          (parseStringBody fuel r).map fun p => (ch :: p.1, p.2)
        match e with
        | '"' => cont '"' rest2
        | '\\' => cont '\\' rest2
        | '/' => cont '/' rest2
        | 'b' => cont '\x08' rest2
        | 'f' => cont '\x0c' rest2
        | 'n' => cont '\n' rest2
        | 'r' => cont '\r' rest2
        | 't' => cont '\t' rest2
        | 'u' =>
          match parseHex4 rest2 with
          | none => none
          | some (n, rest3) =>
            if 0xD800 ≤ n ∧ n ≤ 0xDBFF then
              match rest3 with
              | '\\' :: 'u' :: rest4 =>
                match parseHex4 rest4 with
                | some (m, rest5) =>
                  if 0xDC00 ≤ m ∧ m ≤ 0xDFFF then
                    cont (Char.ofNat (0x10000 + (n - 0xD800) * 0x400 + (m - 0xDC00))) rest5
                  else cont (Char.ofNat n) rest3
                | none => cont (Char.ofNat n) rest3
              | _ => cont (Char.ofNat n) rest3
            else cont (Char.ofNat n) rest3
        | _ => none
    else if c.toNat < 0x20 then none
    else (parseStringBody fuel rest).map fun p => (c :: p.1, p.2)

/-- The JSON number lexeme at the head of the input, following the grammar
`-?(0|[1-9][0-9]*)(\.[0-9]+)?([eE][+-]?[0-9]+)?` used by Python's `json`
scanner (longest match; a malformed tail is simply not consumed). -/
def parseNumber (s : List Char) : Option (List Char × List Char) :=
  let signed : List Char × List Char :=
    match s with
    | '-' :: r => (['-'], r)
    | _ => ([], s)
  let intPart : Option (List Char × List Char) :=
    match signed.2 with
    | '0' :: r => some (signed.1 ++ ['0'], r)
    | c :: r =>
      if c.isDigit then
        some (signed.1 ++ c :: r.takeWhile Char.isDigit, r.dropWhile Char.isDigit)
      else none
    | [] => none
  match intPart with
  | none => none
  | some (lex, r) =>
    let fracced : List Char × List Char :=
      match r with
      | '.' :: d :: r2 =>
        if d.isDigit then
          (lex ++ '.' :: d :: r2.takeWhile Char.isDigit, r2.dropWhile Char.isDigit)
        else (lex, r)
      | _ => (lex, r)
    match fracced.2 with
    | e :: r2 =>
      if e = 'e' ∨ e = 'E' then
        match r2 with
        | sgn :: d :: r3 =>
          if (sgn = '+' ∨ sgn = '-') ∧ d.isDigit then
            some (fracced.1 ++ e :: sgn :: d :: r3.takeWhile Char.isDigit,
              r3.dropWhile Char.isDigit)
          else if sgn.isDigit then
            some (fracced.1 ++ e :: sgn :: (d :: r3).takeWhile Char.isDigit,
              (d :: r3).dropWhile Char.isDigit)
          else some fracced
        | [d] =>
          if d.isDigit then some (fracced.1 ++ [e, d], []) else some fracced
        | [] => some fracced
      else some fracced
    | [] => some fracced

mutual

/-- Parse one JSON value (after optional leading whitespace).  `fuel`
decreases on every recursive call; callers supply `input.length + 1`,
which suffices because every recursion step consumes input.  Includes the
non-standard `NaN` / `Infinity` / `-Infinity` constants that Python's
`json.loads` accepts by default. -/
def parseValue : ℕ → List Char → Option (JsonValue × List Char)
  | 0, _ => none
  | fuel + 1, s =>
    match skipWs s with
    | '\x7b' :: r =>
      match skipWs r with
      | '\x7d' :: r2 => some (.obj [], r2)
      | r2 => parseMembers fuel r2 []
    | '[' :: r =>
      match skipWs r with
      | ']' :: r2 => some (.arr [], r2)
      | r2 => parseItems fuel r2 []
    | '"' :: r => (parseStringBody (r.length + 1) r).map fun p => (.str p.1, p.2)
    | 't' :: 'r' :: 'u' :: 'e' :: r => some (.bool true, r)
    | 'f' :: 'a' :: 'l' :: 's' :: 'e' :: r => some (.bool false, r)
    | 'n' :: 'u' :: 'l' :: 'l' :: r => some (.null, r)
    | 'N' :: 'a' :: 'N' :: r => some (.num ('N' :: 'a' :: 'N' :: []), r)
    | 'I' :: 'n' :: 'f' :: 'i' :: 'n' :: 'i' :: 't' :: 'y' :: r =>
      some (.num ("Infinity".toList), r)
    | '-' :: 'I' :: 'n' :: 'f' :: 'i' :: 'n' :: 'i' :: 't' :: 'y' :: r =>
      some (.num ("-Infinity".toList), r)
    | s2 => (parseNumber s2).map fun p => (.num p.1, p.2)

/-- Parse the members of a JSON object, positioned at a key. -/
def parseMembers : ℕ → List Char → List (List Char × JsonValue) →
    Option (JsonValue × List Char)
  | 0, _, _ => none
  | fuel + 1, s, acc =>
    match s with
    | '"' :: r =>
      match parseStringBody (r.length + 1) r with
      | none => none
      | some (key, r2) =>
        match skipWs r2 with
        | ':' :: r3 =>
          match parseValue fuel r3 with
          | none => none
          | some (v, r4) =>
            match skipWs r4 with
            | ',' :: r5 => parseMembers fuel (skipWs r5) (acc ++ [(key, v)])
            | '\x7d' :: r5 => some (.obj (acc ++ [(key, v)]), r5)
            | _ => none
        | _ => none
    | _ => none

/-- Parse the items of a JSON array, positioned at a value. -/
def parseItems : ℕ → List Char → List JsonValue → Option (JsonValue × List Char)
  | 0, _, _ => none
  | fuel + 1, s, acc =>
    match parseValue fuel s with
    | none => none
    | some (v, r) =>
      match skipWs r with
      | ',' :: r2 => parseItems fuel r2 (acc ++ [v])
      | ']' :: r2 => some (.arr (acc ++ [v]), r2)
      | _ => none

end

/-- Embedding of Python `json.loads`: parse one value and require that only
whitespace follows it. -/
def json_loads (s : PyStr) : Option JsonValue :=
  match parseValue (s.length + 1) s with
  | some (v, rest) => if skipWs rest = [] then some v else none
  | none => none

/-! ## Inference-response normalization (`extract_transcription_text`) -/

/-- Python runtime values that can reach `extract_transcription_text`:
strings, JSON-style data (`None`, booleans, numbers, lists, dicts), objects
exposing a `.text` attribute, pydantic models (with `model_dump()`), and
anything else, represented by its `str()` rendering. -/
inductive PyObj where
  | pyStr (s : List Char)
  | pyNone
  | pyBool (b : Bool)
  | pyNum (lexeme : List Char)
  | pyList (items : List PyObj)
  | pyDict (fields : List (List Char × PyObj))
  | textObj (t : PyObj) (reprS : List Char)
  | pydantic (fields : List (List Char × PyObj)) (reprS : List Char)
  | otherObj (reprS : List Char)
deriving BEq, Repr

mutual

/-- Translate a parsed JSON value to the Python object `json.loads`
returns. -/
def jsonToPy : JsonValue → PyObj
  | .null => .pyNone
  | .bool b => .pyBool b
  | .num l => .pyNum l
  | .str s => .pyStr s
  | .arr xs => .pyList (jsonListToPy xs)
  | .obj fs => .pyDict (jsonFieldsToPy fs)

/-- Translate a list of JSON values. -/
def jsonListToPy : List JsonValue → List PyObj
  | [] => []
  | v :: vs => jsonToPy v :: jsonListToPy vs

/-- Translate the fields of a JSON object. -/
def jsonFieldsToPy : List (List Char × JsonValue) → List (List Char × PyObj)
  | [] => []
  | (k, v) :: fs => (k, jsonToPy v) :: jsonFieldsToPy fs

end

/-- Python dict lookup.  JSON objects with duplicate keys keep the last
occurrence (`dict(pairs)` semantics), so the lookup scans from the right. -/
def lookupLast {α : Type} (fields : List (List Char × α)) (k : List Char) : Option α :=
  ((fields.reverse.find? fun kv => kv.1 == k).map fun kv => kv.2)

/-- Python `repr` of a string: quoted, preferring single quotes, switching
to double quotes when the content contains a single quote but no double
quote; quotes, backslashes and common control characters are escaped. -/
def pyQuote (s : List Char) : List Char :=
  let q : Char := if s.contains '\'' && !(s.contains '"') then '"' else '\''
  let esc := fun (c : Char) =>
    if c = '\\' then ['\\', '\\']
    else if c = q then ['\\', q]
    else if c = '\n' then ['\\', 'n']
    else if c = '\r' then ['\\', 'r']
    else if c = '\t' then ['\\', 't']
    else [c]
  q :: s.flatMap esc ++ [q]

/-- Comma-space join used by Python container reprs. -/
def joinSep2 : List (List Char) → List Char
  | [] => []
  | [t] => t
  | t :: u :: us => t ++ ',' :: ' ' :: joinSep2 (u :: us)

mutual

/-- Embedding of Python `str(x)` for the values above.  Containers render
their elements with `repr`, as Python does. -/
def pyStrOf : PyObj → List Char
  | .pyStr s => s
  | .pyNone => 'N' :: 'o' :: 'n' :: 'e' :: []
  | .pyBool true => 'T' :: 'r' :: 'u' :: 'e' :: []
  | .pyBool false => 'F' :: 'a' :: 'l' :: 's' :: 'e' :: []
  | .pyNum l => l
  | .pyList xs => '[' :: joinSep2 (pyReprList xs) ++ [']']
  | .pyDict fs => '\x7b' :: joinSep2 (pyReprFields fs) ++ ['\x7d']
  | .textObj _ r => r
  | .pydantic _ r => r
  | .otherObj r => r

/-- `repr` of each element of a list. -/
def pyReprList : List PyObj → List (List Char)
  | [] => []
  | .pyStr s :: xs => pyQuote s :: pyReprList xs
  | x :: xs => pyStrOf x :: pyReprList xs

/-- `repr(key): repr(value)` of each field of a dict. -/
def pyReprFields : List (List Char × PyObj) → List (List Char)
  | [] => []
  | (k, .pyStr s) :: fs => (pyQuote k ++ ':' :: ' ' :: pyQuote s) :: pyReprFields fs
  | (k, v) :: fs => (pyQuote k ++ ':' :: ' ' :: pyStrOf v) :: pyReprFields fs

end

/-- Embedding of `extract_transcription_text(response)` (`tasks.py`).
Mirrors the source's branch order: strings are returned as-is unless they
parse as a JSON object containing `"text"`; then the `.text` attribute;
then dicts with a `'text'` key; then pydantic `model_dump()` dicts with
`'text'`; anything else falls back to `str(response)`.  The return value
is whatever Python object those branches produce — not necessarily a
string. -/
def extract_transcription_text : PyObj → PyObj
  | .pyStr s =>
    match json_loads s with
    | some (.obj fields) =>
      match lookupLast fields ('t' :: 'e' :: 'x' :: 't' :: []) with
      | some v => jsonToPy v
      | none => .pyStr s
    | _ => .pyStr s
  | .textObj t _ => t
  | .pyDict fields =>
    match lookupLast fields ('t' :: 'e' :: 'x' :: 't' :: []) with
    | some v => v
    | none => .pyStr (pyStrOf (.pyDict fields))
  | .pydantic fields r =>
    match lookupLast fields ('t' :: 'e' :: 'x' :: 't' :: []) with
    | some v => v
    | none => .pyStr (pyStrOf (.pydantic fields r))
  | resp => .pyStr (pyStrOf resp)

/-! ## Per-chunk transcription loop and job outcome (`tasks.py`) -/

/-- Outcome of one job run, as recorded by `transcribe_audio_task`. -/
inductive JobOutcome where
  | completed (text : PyStr)
  | failed (error : PyStr)
deriving DecidableEq, Repr

/-- One chunk's engine interaction in the transcription loop:
the chunk's `(start_time, end_time)` and either `none` (the
`client.audio.transcriptions.create` call raised) or `some text` (the
normalized response text). -/
abbrev ChunkResult := ℚ × ℚ × Option PyStr

/-- The `transcribed_chunks` list built by the loop in
`process_transcription_async`: failing chunks are skipped (`continue`),
and successful chunks are appended only when `text.strip()` is non-empty. -/
def transcribedChunks (results : List ChunkResult) : List MergeChunk :=
  results.filterMap fun r =>
    match r.2.2 with
    | none => none
    | some text =>
      if pyStrip text = [] then none
      else some ⟨text, some r.1, some r.2.1, none⟩

/-- The job-level error message raised when `transcribed_chunks` is empty. -/
def allChunksFailedMsg : PyStr := "All chunks failed to transcribe".toList

/-- End of the non-diarization chunked path: raise if no chunk contributed,
otherwise merge the transcribed chunks in plain mode. -/
def processChunkedTranscription (results : List ChunkResult) : Except PyStr PyStr :=
  let tc := transcribedChunks results
  if tc = [] then .error allChunksFailedMsg
  else .ok (merge_transcriptions tc false false)

/-- `transcribe_audio_task`'s view of the chunked path: a returned text is
committed as `completed`, an escaped exception is committed as `failed`. -/
def runChunkedJob (results : List ChunkResult) : JobOutcome :=
  match processChunkedTranscription results with
  | .ok t => .completed t
  | .error e => .failed e

/-! ## Job-record writes (`tasks.py` status / progress / text / error) -/

/-- One committed state of the job record's fields touched by the task. -/
structure JobRec where
  status : PyStr
  progress : ℤ
  text : Option PyStr
  errorMsg : Option PyStr
deriving DecidableEq, Repr

/-- A progress-only commit made while the job is `processing`. -/
def procRec (p : ℤ) : JobRec := ⟨"processing".toList, p, none, none⟩

/-- Progress values committed on the non-diarization chunked path:
5, 10, 20, then `int(20 + idx * (70 / len(chunks)))` per chunk. -/
def chunkedProgressSeq (n : ℕ) : List ℤ :=
  [5, 10, 20] ++ (List.range n).map fun i : ℕ => 20 + 70 * (i : ℤ) / (n : ℤ)

/-- Progress values committed on the diarization path:
5, 10, 15, 30, then `int(30 + idx * (60 / len(chunks)))` per chunk. -/
def diarProgressSeq (n : ℕ) : List ℤ :=
  [5, 10, 15, 30] ++ (List.range n).map fun i : ℕ => 30 + 60 * (i : ℤ) / (n : ℤ)

/-- Progress values committed on the short (unchunked) path: 5, 10, 50. -/
def shortProgressSeq : List ℤ := [5, 10, 50]

/-- The terminal commit of a successful run: text, status, progress and
cleared error are written in one commit. -/
def completedRec (t : PyStr) : JobRec := ⟨"completed".toList, 100, some t, none⟩

/-- The `text` placeholder written by the failure handler. -/
def placeholderText (e : PyStr) : PyStr :=
  "[TRANSCRIPTION FAILED]\n\nError: ".toList ++ e ++
    "\n\nThe audio recording has been saved but could not be transcribed.".toList

/-- The failure handler's `text` update: keep an existing non-blank
transcript, otherwise store the placeholder. -/
def failedTextValue (prev : Option PyStr) (e : PyStr) : Option PyStr :=
  match prev with
  | none => some (placeholderText e)
  | some t => if pyStrip t = [] then some (placeholderText e) else some t

/-- The terminal commit of a failed run. -/
def failedRec (prev : Option PyStr) (e : PyStr) : JobRec :=
  ⟨"failed".toList, 0, failedTextValue prev e, some e⟩

/-- Commit sequence of a run that completes, given its processing-phase
progress values and final merged text. -/
def successTrace (ps : List ℤ) (t : PyStr) : List JobRec :=
  ps.map procRec ++ [completedRec t]

/-- Commit sequence of a run whose work raises after `k` processing-phase
commits; mid-run `text` is still unset, so the placeholder branch fires. -/
def failureTrace (ps : List ℤ) (k : ℕ) (e : PyStr) : List JobRec :=
  (ps.take k).map procRec ++ [failedRec none e]

/-- All commit sequences the task can produce in one run, over the three
strategy paths and the two outcomes (`n` = number of chunks, `k` = number
of commits before a failure escapes). -/
def jobTraces (n : ℕ) (t e : PyStr) (k : ℕ) : List (List JobRec) :=
  [successTrace (chunkedProgressSeq n) t,
   successTrace (diarProgressSeq n) t,
   successTrace shortProgressSeq t,
   failureTrace (chunkedProgressSeq n) k e,
   failureTrace (diarProgressSeq n) k e,
   failureTrace shortProgressSeq k e]

/-- The progress values a poller can observe while the record reports
`processing`, in commit order. -/
def processingProgress (T : List JobRec) : List ℤ :=
  (T.filter fun r => r.status == "processing".toList).map JobRec.progress

/-! ## Helper lemmas -/

theorem mergeLine_plain (c : MergeChunk) :
    mergeLine false false c =
      if pyStrip c.text = [] then none else some (pyStrip c.text) := by
  simp [mergeLine]

theorem filterMap_mergeLine_plain (l : List MergeChunk) :
    l.filterMap (mergeLine false false) =
      (l.map fun c => pyStrip c.text).filter fun t => !t.isEmpty := by
  induction l with
  | nil => simp
  | cons c cs ih =>
    by_cases h : pyStrip c.text = [] <;>
      simp [List.filterMap_cons, mergeLine_plain, h, ih, List.filter_cons]

/-- Two sorted lists of diarization segments that are permutations of each
other and have pairwise-distinct start times are equal. -/
theorem sorted_perm_eq_of_distinct_starts :
    ∀ {l₁ l₂ : List DiarSegment}, l₁.Perm l₂ →
      l₁.Sorted (fun a b => a.start ≤ b.start) →
      l₂.Sorted (fun a b => a.start ≤ b.start) →
      l₁.Pairwise (fun a b => a.start ≠ b.start) → l₁ = l₂
  | [], l₂, hp, _, _, _ => (hp.nil_eq).symm ▸ rfl
  | a :: t₁, [], hp, _, _, _ => absurd hp.symm.nil_eq (by simp)
  | a :: t₁, b :: t₂, hp, hs₁, hs₂, hd => by
    rcases eq_or_ne a b with rfl | hne
    · have ht : t₁.Perm t₂ := hp.cons_inv
      have := sorted_perm_eq_of_distinct_starts ht
        (List.sorted_cons.mp hs₁).2 (List.sorted_cons.mp hs₂).2
        (List.pairwise_cons.mp hd).2
      rw [this]
    · exfalso
      have hb₁ : b ∈ a :: t₁ := hp.mem_iff.mpr (List.mem_cons_self b t₂)
      have ha₂ : a ∈ b :: t₂ := hp.mem_iff.mp (List.mem_cons_self a t₁)
      have hb₁' : b ∈ t₁ := by
        rcases List.mem_cons.mp hb₁ with h | h
        · exact absurd h.symm hne
        · exact h
      have ha₂' : a ∈ t₂ := by
        rcases List.mem_cons.mp ha₂ with h | h
        · exact absurd h hne
        · exact h
      have h₁ : a.start ≤ b.start := (List.sorted_cons.mp hs₁).1 b hb₁'
      have h₂ : b.start ≤ a.start := (List.sorted_cons.mp hs₂).1 a ha₂'
      exact (List.pairwise_cons.mp hd).1 b hb₁' (le_antisymm h₁ h₂)

theorem sortSegmentsByStart_sorted (segs : List DiarSegment) :
    (sortSegmentsByStart segs).Sorted fun a b => a.start ≤ b.start := by
  haveI : IsTotal DiarSegment fun a b => a.start ≤ b.start := ⟨fun a b => le_total _ _⟩
  haveI : IsTrans DiarSegment fun a b => a.start ≤ b.start :=
    ⟨fun _ _ _ h h' => le_trans h h'⟩
  exact List.sorted_insertionSort _ segs

theorem sortSegmentsByStart_reverse (segs : List DiarSegment)
    (h : segs.Pairwise fun a b => a.start ≠ b.start) :
    sortSegmentsByStart segs.reverse = sortSegmentsByStart segs := by
  have hsym : ∀ {x y : DiarSegment}, x.start ≠ y.start → y.start ≠ x.start :=
    fun hxy => hxy ∘ Eq.symm
  have hperm : (sortSegmentsByStart segs.reverse).Perm (sortSegmentsByStart segs) :=
    ((List.perm_insertionSort _ _).trans segs.reverse_perm).trans
      (List.perm_insertionSort _ segs).symm
  exact sorted_perm_eq_of_distinct_starts hperm
    (sortSegmentsByStart_sorted _) (sortSegmentsByStart_sorted _)
    (((List.perm_insertionSort _ _).trans segs.reverse_perm).pairwise_iff hsym |>.mpr h)

theorem gbsLoop_skip_filter (l : List MergeChunk) :
    ∀ g sp ts st en, gbsLoop g sp ts st en
        (l.filter fun c => !(pyStrip c.text).isEmpty) = gbsLoop g sp ts st en l := by
  induction l with
  | nil => intro g sp ts st en; rfl
  | cons c cs ih =>
    intro g sp ts st en
    by_cases h : pyStrip c.text = [] <;>
      simp [List.filter_cons, h, gbsLoop, ih]

theorem gbsLoop_all_empty (l : List MergeChunk)
    (h : ∀ c ∈ l, pyStrip c.text = []) :
    ∀ g sp ts st en, gbsLoop g sp ts st en l = gbsFlush g sp ts st en := by
  induction l with
  | nil => intro g sp ts st en; rfl
  | cons c cs ih =>
    intro g sp ts st en
    have hc := h c (List.mem_cons_self c cs)
    simp only [gbsLoop, hc, if_pos rfl]
    exact ih (fun d hd => h d (List.mem_cons_of_mem c hd)) g sp ts st en

theorem group_by_speaker_filter (l : List MergeChunk) :
    group_by_speaker (l.filter fun c => !(pyStrip c.text).isEmpty) =
      group_by_speaker l := by
  unfold group_by_speaker
  by_cases hl : l = []
  · simp [hl]
  · by_cases hf : (l.filter fun c => !(pyStrip c.text).isEmpty) = []
    · have hall : ∀ c ∈ l, pyStrip c.text = [] := by
        intro c hc
        by_contra hne
        have : c ∈ l.filter fun c => !(pyStrip c.text).isEmpty :=
          List.mem_filter.mpr ⟨hc, by simp [hne]⟩
        simp [hf] at this
      rw [if_pos hf, if_neg hl, gbsLoop_all_empty l hall]
      rfl
    · rw [if_neg hf, if_neg hl, gbsLoop_skip_filter]

/-- A string with no leading and no trailing whitespace. -/
def NoEdgeSpace (s : PyStr) : Prop :=
  (∀ h ∈ s.head?, isPySpace h = false) ∧ (∀ h ∈ s.getLast?, isPySpace h = false)

theorem head?_dropWhile_no_space (l : PyStr) :
    ∀ h ∈ (l.dropWhile isPySpace).head?, isPySpace h = false := by
  induction l with
  | nil => simp
  | cons a t ih =>
    rw [List.dropWhile_cons]
    by_cases ha : isPySpace a
    · simpa [ha] using ih
    · simp [ha]

theorem pyStrip_of_noEdgeSpace {s : PyStr} (h : NoEdgeSpace s) : pyStrip s = s := by
  obtain ⟨h1, h2⟩ := h
  cases s with
  | nil => rfl
  | cons a t =>
    have ha : isPySpace a = false := h1 a rfl
    unfold pyStrip
    rw [List.dropWhile_cons, if_neg (by simp [ha])]
    obtain ⟨b, u, hbu⟩ : ∃ b u, (a :: t).reverse = b :: u := by
      rcases List.exists_cons_of_ne_nil
        (by simp : (a :: t).reverse ≠ []) with ⟨b, u, hbu⟩
      exact ⟨b, u, hbu⟩
    have hb : isPySpace b = false := by
      apply h2
      rw [← List.head?_reverse, hbu]
      rfl
    rw [hbu, List.dropWhile_cons, if_neg (by simp [hb]), ← hbu, List.reverse_reverse]

theorem noEdgeSpace_pyStrip (s : PyStr) : NoEdgeSpace (pyStrip s) := by
  unfold pyStrip
  constructor
  · intro h hh
    rw [List.head?_reverse] at hh
    by_cases hv : (s.dropWhile isPySpace).reverse.dropWhile isPySpace = []
    · simp [hv] at hh
    · obtain ⟨w, hw⟩ := List.dropWhile_suffix
        (l := (s.dropWhile isPySpace).reverse) isPySpace
      have hgl : ((s.dropWhile isPySpace).reverse.dropWhile isPySpace).getLast? =
          (s.dropWhile isPySpace).reverse.getLast? := by
        have := List.getLast?_append_of_ne_nil w hv
        rw [hw] at this
        exact this.symm
      rw [hgl, List.getLast?_reverse] at hh
      exact head?_dropWhile_no_space s h hh
  · intro h hh
    rw [List.getLast?_reverse] at hh
    exact head?_dropWhile_no_space (s.dropWhile isPySpace).reverse h hh

theorem noEdgeSpace_join {a b : PyStr} (ha : NoEdgeSpace a) (hb : NoEdgeSpace b)
    (hna : a ≠ []) (hnb : b ≠ []) : NoEdgeSpace (a ++ ' ' :: b) := by
  constructor
  · intro h hh
    rw [List.head?_append_of_ne_nil a hna] at hh
    exact ha.1 h hh
  · intro h hh
    rw [show a ++ ' ' :: b = (a ++ [' ']) ++ b by simp,
      List.getLast?_append_of_ne_nil _ hnb] at hh
    exact hb.2 h hh

theorem joinSpace_ne_nil {t : PyStr} (ts : List PyStr) (h : t ≠ []) :
    joinSpace (t :: ts) ≠ [] := by
  cases ts with
  | nil => simpa [joinSpace, joinSep] using h
  | cons u us =>
    simp only [joinSpace, joinSep]
    intro hc
    rcases List.append_eq_nil.mp hc with ⟨h1, _⟩
    exact h h1

theorem joinSpace_concat (ts : List PyStr) (t : PyStr) (h : ts ≠ []) :
    joinSpace (ts ++ [t]) = joinSpace ts ++ ' ' :: t := by
  induction ts with
  | nil => exact absurd rfl h
  | cons a bs ih =>
    cases bs with
    | nil => simp [joinSpace, joinSep]
    | cons b cs =>
      have := ih (List.cons_ne_nil b cs)
      simp only [joinSpace, joinSep, List.cons_append, List.append_eq] at this ⊢
      rw [this]
      simp

/-- The text accumulated by joining non-empty stripped pieces with single
spaces is itself stripped and non-empty. -/
theorem joinSpace_stripped : ∀ ts : List PyStr, ts ≠ [] →
    (∀ x ∈ ts, NoEdgeSpace x ∧ x ≠ []) →
    NoEdgeSpace (joinSpace ts) ∧ joinSpace ts ≠ []
  | [], h, _ => absurd rfl h
  | [t], _, hall => by
    have ht := hall t (by simp)
    exact ⟨by simpa [joinSpace, joinSep] using ht.1,
      by simpa [joinSpace, joinSep] using ht.2⟩
  | t :: u :: us, _, hall => by
    have ht := hall t (by simp)
    have hrest := joinSpace_stripped (u :: us) (by simp)
      (fun x hx => hall x (List.mem_cons_of_mem t hx))
    have hju : joinSpace (t :: u :: us) = t ++ ' ' :: joinSpace (u :: us) := rfl
    rw [hju]
    exact ⟨noEdgeSpace_join ht.1 hrest.1 ht.2 hrest.2, by simp⟩

/-- The `group_by_speaker` loop with an open group in its state computes
the specification-side collapse of that open group continued over the
remaining chunks (provided every chunk has non-blank text and a present
`end`). -/
theorem gbsLoop_eq_specGo : ∀ l : List MergeChunk,
    (∀ c ∈ l, pyStrip c.text ≠ [] ∧ c.endTime.isSome) →
    ∀ (g : List MergeChunk) sp (ts : List PyStr) st en, ts ≠ [] →
    gbsLoop g sp ts st en l = g ++ specGo sp (joinSpace ts) st en l
  | [], _, g, sp, ts, st, en, hts => by
    simp [gbsLoop, gbsFlush, hts, specGo]
  | c :: cs, h, g, sp, ts, st, en, hts => by
    obtain ⟨hct, hce⟩ := h c (by simp)
    obtain ⟨e, he⟩ := Option.isSome_iff_exists.mp hce
    have hrest : ∀ d ∈ cs, pyStrip d.text ≠ [] ∧ d.endTime.isSome :=
      fun d hd => h d (List.mem_cons_of_mem c hd)
    simp only [gbsLoop, specGo]
    rw [if_neg hct]
    by_cases hsp : c.speaker = sp
    · rw [if_pos hsp, if_pos hsp, he]
      rw [gbsLoop_eq_specGo cs hrest g sp (ts ++ [pyStrip c.text]) st (some e)
        (by simp), joinSpace_concat ts _ hts]
    · rw [if_neg hsp, if_neg hsp]
      unfold gbsFlush
      rw [if_neg hts]
      rw [gbsLoop_eq_specGo cs hrest _ c.speaker [pyStrip c.text] c.start c.endTime
        (by simp)]
      show (g ++ [⟨joinSpace ts, st, en, sp⟩]) ++
          specGo c.speaker (joinSpace [pyStrip c.text]) c.start c.endTime cs = _
      rw [show joinSpace [pyStrip c.text] = pyStrip c.text from rfl,
        List.append_assoc]
      rfl

/-- `group_by_speaker` computes the specification-side collapse whenever
every chunk has non-blank text, a present speaker and a present `end`. -/
theorem group_by_speaker_eq_specCollapse (l : List MergeChunk)
    (h : ∀ c ∈ l, pyStrip c.text ≠ [] ∧ c.speaker.isSome ∧ c.endTime.isSome) :
    group_by_speaker l = specCollapse l := by
  cases l with
  | nil => rfl
  | cons c cs =>
    obtain ⟨hct, hcsp, hce⟩ := h c (by simp)
    obtain ⟨sp, hsp⟩ := Option.isSome_iff_exists.mp hcsp
    unfold group_by_speaker
    rw [if_neg (List.cons_ne_nil c cs)]
    simp only [gbsLoop]
    rw [if_neg hct, if_neg (by simp [hsp])]
    rw [show gbsFlush [] none [] none none = [] from rfl]
    rw [gbsLoop_eq_specGo cs
      (fun d hd => ⟨(h d (List.mem_cons_of_mem c hd)).1,
        (h d (List.mem_cons_of_mem c hd)).2.2⟩)
      [] c.speaker [pyStrip c.text] c.start c.endTime (by simp)]
    rfl

theorem specGo_ne_nil : ∀ (l : List MergeChunk) sp acc st en,
    specGo sp acc st en l ≠ []
  | [], _, _, _, _ => by simp [specGo]
  | c :: cs, sp, acc, st, en => by
    simp only [specGo]
    by_cases hsp : c.speaker = sp
    · rw [if_pos hsp]
      exact specGo_ne_nil cs sp _ st c.endTime
    · rw [if_neg hsp]
      exact List.cons_ne_nil _ _

/-- Every group produced by the specification-side collapse has stripped
non-empty text and a present speaker label. -/
theorem specGo_groups : ∀ l : List MergeChunk,
    (∀ c ∈ l, pyStrip c.text ≠ [] ∧ c.speaker.isSome) →
    ∀ sp (acc : PyStr) st en, sp.isSome → NoEdgeSpace acc → acc ≠ [] →
    ∀ g ∈ specGo sp acc st en l,
      NoEdgeSpace g.text ∧ g.text ≠ [] ∧ g.speaker.isSome
  | [], _, sp, acc, st, en, hsp, hacc, hne, g, hg => by
    simp only [specGo, List.mem_singleton] at hg
    subst hg
    exact ⟨hacc, hne, hsp⟩
  | c :: cs, h, sp, acc, st, en, hsp, hacc, hne, g, hg => by
    obtain ⟨hct, hcsp⟩ := h c (by simp)
    have hrest : ∀ d ∈ cs, pyStrip d.text ≠ [] ∧ d.speaker.isSome :=
      fun d hd => h d (List.mem_cons_of_mem c hd)
    simp only [specGo] at hg
    by_cases hspc : c.speaker = sp
    · rw [if_pos hspc] at hg
      exact specGo_groups cs hrest sp _ st c.endTime hsp
        (noEdgeSpace_join hacc (noEdgeSpace_pyStrip c.text) hne hct)
        (by simp [hne]) g hg
    · rw [if_neg hspc] at hg
      rcases List.mem_cons.mp hg with rfl | hg'
      · exact ⟨hacc, hne, hsp⟩
      · exact specGo_groups cs hrest c.speaker _ c.start c.endTime hcsp
          (noEdgeSpace_pyStrip c.text) hct g hg'

theorem filterMap_mergeLine_speaker (gs : List MergeChunk)
    (h : ∀ g ∈ gs, NoEdgeSpace g.text ∧ g.text ≠ [] ∧ g.speaker.isSome) :
    gs.filterMap (mergeLine false true) =
      gs.map fun g => g.speaker.getD [] ++ ':' :: ' ' :: g.text := by
  induction gs with
  | nil => rfl
  | cons g gs ih =>
    obtain ⟨hns, hne, hsp⟩ := h g (by simp)
    obtain ⟨sp, hsp'⟩ := Option.isSome_iff_exists.mp hsp
    have hline : mergeLine false true g = some (sp ++ ':' :: ' ' :: g.text) := by
      unfold mergeLine
      rw [pyStrip_of_noEdgeSpace hns, if_neg hne, hsp']
      show some (joinSpace [sp ++ [':'], g.text]) = _
      rw [show joinSpace [sp ++ [':'], g.text] = (sp ++ [':']) ++ ' ' :: g.text
        from rfl, List.append_assoc]
      rfl
    rw [List.filterMap_cons, hline, List.map_cons,
      ih fun d hd => h d (List.mem_cons_of_mem g hd), hsp']
    rfl

/-- `merge_transcriptions` in speaker mode emits one `SPEAKER: text` line
per group, newline-joined, when every group has stripped non-empty text
and a present speaker. -/
theorem merge_speaker_grouped (gs : List MergeChunk)
    (h : ∀ g ∈ gs, NoEdgeSpace g.text ∧ g.text ≠ [] ∧ g.speaker.isSome) :
    merge_transcriptions gs false true =
      joinSep '\n' (gs.map fun g => g.speaker.getD [] ++ ':' :: ' ' :: g.text) := by
  by_cases hne : gs = []
  · subst hne
    rfl
  · unfold merge_transcriptions
    rw [if_neg hne, filterMap_mergeLine_speaker gs h]
    rfl

/-! ## Claim theorems -/

/-- Claim C3 (code bug exhibit): on the diarization segment
`\x7b'speaker': 'SPEAKER_00', 'start': 0.0, 'end': 60.5\x7d` with
`max_chunk_duration = 60`, the sub-chunk branch is taken (`60.5 > 60`),
yet `chunk_audio_by_diarization` produces a single sub-chunk spanning the
whole 60.5-second segment — exceeding the documented maximum chunk
duration — whereas `ceil(60.5 / 60) = 2` sub-chunks of 30.25 s each are
required by the claim and by the function's own documentation. -/
theorem claim_C3_subchunk_count_bug :
    chunk_audio_by_diarization 60 [⟨"SPEAKER_00".toList, 0, 121 / 2⟩] =
        [⟨0, 60500, 0, 121 / 2, "SPEAKER_00".toList⟩] ∧
      ⌈(((121 : ℚ) / 2 - 0) / 60)⌉ = 2 ∧
      ¬ ((121 : ℚ) / 2 - 0 ≤ 60) := by
  refine ⟨?_, ?_, by norm_num⟩
  · simp only [chunk_audio_by_diarization, List.flatMap_cons, List.flatMap_nil,
      List.append_nil]
    norm_num [pyInt, pyFloor_eq_floor]
    simp only [show List.range 1 = [0] from rfl, List.flatMap_cons, List.flatMap_nil,
      List.map_cons, List.map_nil, List.append_nil, Nat.cast_zero]
    norm_num
  · rw [show ((121 : ℚ) / 2 - 0) / 60 = 121 / 120 by norm_num, Int.ceil_eq_iff]
    norm_num

/-- Claim C2: for audio of positive duration and a positive chunk size,
`chunk_audio` returns chunks whose `[start, end)` second ranges begin at 0,
are contiguous (each chunk's end is the next chunk's start), end at the
total duration `D`, and are each non-degenerate — so they exactly cover
`[0, D)` with no gaps and no overlaps; the number of chunks is
`ceil(D / C)`; and when `D ≤ C` the result is the single chunk `[0, D)`. -/
theorem claim_C2_chunk_audio_coverage (totalMs C : ℕ)
    (hms : 0 < totalMs) (hC : 0 < C) :
    (((chunk_audio totalMs C).map AudioChunk.startSec).head? = some 0) ∧
    (((chunk_audio totalMs C).map AudioChunk.endSec).getLast? =
      some ((totalMs : ℚ) / 1000)) ∧
    List.Chain' (fun a b => a.endSec = b.startSec) (chunk_audio totalMs C) ∧
    (∀ c ∈ chunk_audio totalMs C, c.startSec < c.endSec) ∧
    (((chunk_audio totalMs C).length : ℤ) = ⌈((totalMs : ℚ) / 1000) / (C : ℚ)⌉) ∧
    ((totalMs : ℚ) / 1000 ≤ (C : ℚ) →
      chunk_audio totalMs C = [⟨0, totalMs, 0, (totalMs : ℚ) / 1000⟩]) := by
  have hD : (0 : ℚ) < (totalMs : ℚ) / 1000 := by positivity
  by_cases h : (totalMs : ℚ) / 1000 ≤ (C : ℚ)
  · have hcs : chunk_audio totalMs C = [⟨0, totalMs, 0, (totalMs : ℚ) / 1000⟩] := by
      simp [chunk_audio, h]
    refine ⟨?_, ?_, ?_, ?_, ?_, fun _ => hcs⟩ <;> rw [hcs]
    · rfl
    · rfl
    · exact List.chain'_singleton _
    · intro c hc
      simp only [List.mem_singleton] at hc
      subst hc
      exact hD
    · rw [show ([(⟨0, totalMs, 0, (totalMs : ℚ) / 1000⟩ : AudioChunk)].length : ℤ) = 1
        from rfl]
      symm
      rw [Int.ceil_eq_iff]
      have hCq : (0 : ℚ) < (C : ℚ) := by exact_mod_cast hC
      constructor
      · simpa using div_pos hD hCq
      · push_cast
        rw [div_le_one hCq]
        exact h
  -- long audio: the chunking branch
  · have hb : 0 < C * 1000 := by positivity
    have hab : C * 1000 < totalMs := by
      rw [not_le, lt_div_iff₀ (by norm_num : (0:ℚ) < 1000)] at h
      have : ((C * 1000 : ℕ) : ℚ) < (totalMs : ℚ) := by push_cast; linarith
      exact_mod_cast this
    have hqr : ((totalMs + C * 1000 - 1) / (C * 1000)) * (C * 1000) +
        (totalMs + C * 1000 - 1) % (C * 1000) = totalMs + C * 1000 - 1 := by
      rw [Nat.mul_comm]
      exact Nat.div_add_mod _ _
    have hr : (totalMs + C * 1000 - 1) % (C * 1000) < C * 1000 := Nat.mod_lt _ hb
    set q := (totalMs + C * 1000 - 1) / (C * 1000) with hq_def
    have hq1 : 1 ≤ q := by
      rw [hq_def, Nat.one_le_div_iff hb]
      omega
    have hq' : q - 1 + 1 = q := by omega
    have hmul : (q - 1) * (C * 1000) + C * 1000 = q * (C * 1000) := by
      conv_rhs => rw [← hq']
      ring
    have ha_le : totalMs ≤ q * (C * 1000) := by omega
    have hlt : (q - 1) * (C * 1000) < totalMs := by omega
    have hcs : chunk_audio totalMs C =
        (List.range q).map fun i =>
          ⟨i * (C * 1000), min (i * (C * 1000) + C * 1000) totalMs,
            ((i * (C * 1000) : ℕ) : ℚ) / 1000,
            ((min (i * (C * 1000) + C * 1000) totalMs : ℕ) : ℚ) / 1000⟩ := by
      simp [chunk_audio, h, hq_def]
    obtain ⟨k, hk⟩ : ∃ k, q = k + 1 := ⟨q - 1, by omega⟩
    have hmem_lt : ∀ i, i < q → i * (C * 1000) < totalMs := by
      intro i hi
      calc i * (C * 1000) ≤ (q - 1) * (C * 1000) :=
            Nat.mul_le_mul_right (C * 1000) (by omega)
        _ < totalMs := hlt
    refine ⟨?_, ?_, ?_, ?_, ?_, fun hcon => absurd hcon h⟩
    · rw [hcs, hk, List.range_succ_eq_map]
      simp
    · rw [hcs, hk, List.range_succ]
      simp only [List.map_append, List.map_cons, List.map_nil]
      rw [List.getLast?_concat]
      have hmin : min (k * (C * 1000) + C * 1000) totalMs = totalMs := by
        apply min_eq_right
        calc totalMs ≤ q * (C * 1000) := ha_le
          _ = k * (C * 1000) + C * 1000 := by rw [hk]; ring
      show some (((min (k * (C * 1000) + C * 1000) totalMs : ℕ) : ℚ) / 1000) =
        some ((totalMs : ℚ) / 1000)
      rw [hmin]
    · rw [hcs, List.chain'_map, hk, List.chain'_range_succ]
      intro m hm
      have hmin : min (m * (C * 1000) + C * 1000) totalMs = (m + 1) * (C * 1000) := by
        rw [min_eq_left]
        · ring
        · calc m * (C * 1000) + C * 1000 = (m + 1) * (C * 1000) := by ring
            _ ≤ (q - 1) * (C * 1000) := Nat.mul_le_mul_right (C * 1000) (by omega)
            _ ≤ totalMs := le_of_lt hlt
      simp [hmin]
    · rw [hcs]
      intro c hc
      simp only [List.mem_map, List.mem_range] at hc
      obtain ⟨i, hi, rfl⟩ := hc
      simp only
      rw [div_lt_div_iff_of_pos_right (by norm_num : (0:ℚ) < 1000)]
      have h1 : i * (C * 1000) < i * (C * 1000) + C * 1000 := by omega
      have h2 : i * (C * 1000) < totalMs := hmem_lt i hi
      have : i * (C * 1000) < min (i * (C * 1000) + C * 1000) totalMs := lt_min h1 h2
      exact_mod_cast this
    · rw [hcs, List.length_map, List.length_range]
      symm
      rw [Int.ceil_eq_iff]
      have hbq' : (0 : ℚ) < ((C * 1000 : ℕ) : ℚ) := by exact_mod_cast hb
      have hbq : ((totalMs : ℚ) / 1000) / (C : ℚ) =
          (totalMs : ℚ) / ((C * 1000 : ℕ) : ℚ) := by
        push_cast
        rw [div_div]
        ring_nf
      rw [hbq]
      constructor
      · rw [lt_div_iff₀ hbq']
        have hlt' : (((q - 1) * (C * 1000) : ℕ) : ℚ) < (totalMs : ℚ) := by
          exact_mod_cast hlt
        have hcast : ((q : ℤ) : ℚ) - 1 = ((q - 1 : ℕ) : ℚ) := by
          push_cast [Nat.cast_sub hq1]
          ring
        rw [hcast]
        calc ((q - 1 : ℕ) : ℚ) * ((C * 1000 : ℕ) : ℚ)
            = (((q - 1) * (C * 1000) : ℕ) : ℚ) := by push_cast; ring
          _ < (totalMs : ℚ) := hlt'
      · rw [div_le_iff₀ hbq']
        have : (totalMs : ℚ) ≤ ((q * (C * 1000) : ℕ) : ℚ) := by exact_mod_cast ha_le
        calc (totalMs : ℚ) ≤ ((q * (C * 1000) : ℕ) : ℚ) := this
          _ = ((q : ℤ) : ℚ) * ((C * 1000 : ℕ) : ℚ) := by push_cast; ring

/-- Witness for C2: the 90-second audio with 60-second chunks is covered
by exactly two contiguous chunks. -/
theorem claim_C2_witness :
    (((chunk_audio 90000 60).map AudioChunk.startSec).head? = some 0) ∧
    (((chunk_audio 90000 60).map AudioChunk.endSec).getLast? =
      some ((90000 : ℚ) / 1000)) ∧
    List.Chain' (fun a b => a.endSec = b.startSec) (chunk_audio 90000 60) ∧
    (∀ c ∈ chunk_audio 90000 60, c.startSec < c.endSec) ∧
    (((chunk_audio 90000 60).length : ℤ) = ⌈((90000 : ℚ) / 1000) / (60 : ℚ)⌉) ∧
    ((90000 : ℚ) / 1000 ≤ (60 : ℚ) →
      chunk_audio 90000 60 = [⟨0, 90000, 0, (90000 : ℚ) / 1000⟩]) :=
  claim_C2_chunk_audio_coverage 90000 60 (by norm_num) (by norm_num)

/-- Claim C4 counterexample: in plain mode the merger joins the *stripped*
texts, so a chunk whose text carries leading/trailing whitespace does not
reappear verbatim: the claim's promised output `" hi "` differs from the
actual output `"hi"`. -/
theorem claim_C4_counterexample :
    merge_transcriptions [⟨" hi ".toList, none, none, none⟩] false false =
        "hi".toList ∧
      "hi".toList ≠ " hi ".toList := by
  exact ⟨by decide, by decide⟩

/-- Claim C4 (amended): `merge_transcriptions` in plain mode returns the
space-joined concatenation of the *stripped* text fields in list order,
dropping chunks whose text is empty or whitespace-only; in particular an
empty chunk list, or one whose every text is whitespace-only, yields the
empty string. -/
theorem claim_C4_plain_merge (chunks : List MergeChunk) :
    merge_transcriptions chunks false false =
      joinSpace ((chunks.map fun c => pyStrip c.text).filter fun t => !t.isEmpty) := by
  unfold merge_transcriptions
  by_cases h : chunks = []
  · simp [h, joinSpace, joinSep]
  · simp [h, filterMap_mergeLine_plain]

/-- Claim C1 counterexample: `chunk_audio_by_diarization` itself performs
no sort — fed two segments in reverse-chronological order it emits their
chunks in that same reversed order, which differs from the forward-order
output. -/
theorem claim_C1_counterexample :
    chunk_audio_by_diarization 60 [⟨"B".toList, 1, 2⟩, ⟨"A".toList, 0, 1⟩] ≠
      chunk_audio_by_diarization 60 [⟨"A".toList, 0, 1⟩, ⟨"B".toList, 1, 2⟩] := by
  simp only [chunk_audio_by_diarization, List.flatMap_cons, List.flatMap_nil,
    List.append_nil]
  norm_num [pyInt, pyFloor_eq_floor]

/-- Claim C1 (amended): the chronological sort happens in the caller
(`process_transcription_async` sorts the diarization output by `start`
before chunking), not inside `chunk_audio_by_diarization`; the sorted
output is ascending in `start`, and for segments with pairwise-distinct
start times the sort-then-chunk pipeline maps reverse-chronological input
to exactly the same ordered chunk list as forward input. -/
theorem claim_C1_pipeline_sort :
    (∀ segs : List DiarSegment,
      (sortSegmentsByStart segs).Sorted fun a b => a.start ≤ b.start) ∧
    (∀ (maxChunkDuration : ℕ) (segs : List DiarSegment),
      segs.Pairwise (fun a b => a.start ≠ b.start) →
      pipelineDiarizationChunks maxChunkDuration segs.reverse =
        pipelineDiarizationChunks maxChunkDuration segs) := by
  refine ⟨sortSegmentsByStart_sorted, fun maxd segs h => ?_⟩
  unfold pipelineDiarizationChunks
  rw [sortSegmentsByStart_reverse segs h]

/-- Witness for C1: the pipeline output for the concrete reversed pair
equals the forward output. -/
theorem claim_C1_witness :
    pipelineDiarizationChunks 60
        (List.reverse [⟨"A".toList, 0, 1⟩, ⟨"B".toList, 1, 2⟩]) =
      pipelineDiarizationChunks 60 [⟨"A".toList, 0, 1⟩, ⟨"B".toList, 1, 2⟩] :=
  claim_C1_pipeline_sort.2 60 [⟨"A".toList, 0, 1⟩, ⟨"B".toList, 1, 2⟩]
    (by norm_num)

/-- Claim C10: `group_by_speaker` discards chunks whose text is empty or
whitespace-only before any grouping: grouping the filtered list gives the
same result, and consequently a block of whitespace-only chunks (of any
speakers) sitting between two runs is invisible — the groups, including
each group's `start` and `end`, are computed solely from the non-empty
chunks. -/
theorem claim_C10_empty_chunks_invisible :
    (∀ l : List MergeChunk,
      group_by_speaker (l.filter fun c => !(pyStrip c.text).isEmpty) =
        group_by_speaker l) ∧
    (∀ xs mids ys : List MergeChunk, (∀ m ∈ mids, pyStrip m.text = []) →
      group_by_speaker (xs ++ mids ++ ys) = group_by_speaker (xs ++ ys)) := by
  refine ⟨group_by_speaker_filter, fun xs mids ys h => ?_⟩
  have hm : (mids.filter fun c => !(pyStrip c.text).isEmpty) = [] := by
    rw [List.filter_eq_nil_iff]
    intro a ha
    simp [h a ha]
  calc group_by_speaker (xs ++ mids ++ ys)
      = group_by_speaker ((xs ++ mids ++ ys).filter fun c => !(pyStrip c.text).isEmpty) :=
        (group_by_speaker_filter _).symm
    _ = group_by_speaker ((xs ++ ys).filter fun c => !(pyStrip c.text).isEmpty) := by
        rw [List.filter_append, List.filter_append, List.filter_append, hm,
          List.append_nil]
    _ = group_by_speaker (xs ++ ys) := group_by_speaker_filter _

/-- Witness for C10: a whitespace-only chunk of speaker B between two
speaker-A chunks is dropped, so the list groups exactly like the list
without it. -/
theorem claim_C10_witness :
    group_by_speaker
        ([⟨"a".toList, some 0, some 1, some "A".toList⟩] ++
          [⟨" ".toList, some 1, some 2, some "B".toList⟩] ++
          [⟨"b".toList, some 2, some 3, some "A".toList⟩]) =
      group_by_speaker
        ([⟨"a".toList, some 0, some 1, some "A".toList⟩] ++
          [⟨"b".toList, some 2, some 3, some "A".toList⟩]) :=
  claim_C10_empty_chunks_invisible.2
    [⟨"a".toList, some 0, some 1, some "A".toList⟩]
    [⟨" ".toList, some 1, some 2, some "B".toList⟩]
    [⟨"b".toList, some 2, some 3, some "A".toList⟩]
    (by decide)

/-- Claim C5 counterexample: a group takes the *first* chunk's start and
the *last* chunk's end — not the run's min start and max end.  For the
same-speaker run `x@[5,6], y@[0,1]` the produced group carries
`start = 5, end = 1`, while the run's min start is 0 and max end is 6. -/
theorem claim_C5_counterexample :
    group_by_speaker
        [⟨"x".toList, some 5, some 6, some "A".toList⟩,
          ⟨"y".toList, some 0, some 1, some "A".toList⟩] =
      [⟨"x y".toList, some 5, some 1, some "A".toList⟩] ∧
    min (5 : ℚ) 0 = 0 ∧ max (6 : ℚ) 1 = 6 ∧ (5 : ℚ) ≠ 0 ∧ (1 : ℚ) ≠ 6 :=
  ⟨by decide, by norm_num, by norm_num, by norm_num, by norm_num⟩

/-- Claim C5 (amended): for speaker-labeled chunks with non-empty (after
stripping) texts, `group_by_speaker` collapses each maximal run of
consecutive same-speaker chunks into one group — texts joined by single
spaces, `start` from the run's first chunk and `end` from its last chunk
(these equal the min start and max end whenever the run is chronologically
ordered) — then the merge emits one `SPEAKER: text` line per group,
newline-joined; and the speaker sequence `[A, A, B, A]` yields exactly
three groups. -/
theorem claim_C5_speaker_grouping :
    (∀ l : List MergeChunk,
      (∀ c ∈ l, pyStrip c.text ≠ [] ∧ c.speaker.isSome ∧ c.endTime.isSome) →
      group_by_speaker l = specCollapse l) ∧
    (∀ l : List MergeChunk,
      (∀ c ∈ l, pyStrip c.text ≠ [] ∧ c.speaker.isSome ∧ c.endTime.isSome) →
      merge_transcriptions (group_by_speaker l) false true =
        joinSep '\n' ((specCollapse l).map fun g =>
          g.speaker.getD [] ++ ':' :: ' ' :: g.text)) ∧
    (∀ (c1 c2 c3 c4 : MergeChunk) (A B : PyStr), A ≠ B →
      (∀ c ∈ [c1, c2, c3, c4], pyStrip c.text ≠ [] ∧ c.endTime.isSome) →
      c1.speaker = some A → c2.speaker = some A → c3.speaker = some B →
      c4.speaker = some A →
      (group_by_speaker [c1, c2, c3, c4]).length = 3) := by
  have hmain : ∀ l : List MergeChunk,
      (∀ c ∈ l, pyStrip c.text ≠ [] ∧ c.speaker.isSome ∧ c.endTime.isSome) →
      group_by_speaker l = specCollapse l := group_by_speaker_eq_specCollapse
  refine ⟨hmain, ?_, ?_⟩
  · intro l hl
    rw [hmain l hl]
    cases l with
    | nil => rfl
    | cons c cs =>
      apply merge_speaker_grouped
      intro g hg
      obtain ⟨hct, hcsp, _⟩ := hl c (by simp)
      simp only [specCollapse] at hg
      exact specGo_groups cs
        (fun d hd => ⟨(hl d (List.mem_cons_of_mem c hd)).1,
          (hl d (List.mem_cons_of_mem c hd)).2.1⟩)
        c.speaker _ c.start c.endTime hcsp (noEdgeSpace_pyStrip c.text) hct g hg
  · intro c1 c2 c3 c4 A B hAB hte hsp1 hsp2 hsp3 hsp4
    have hl : ∀ c ∈ [c1, c2, c3, c4],
        pyStrip c.text ≠ [] ∧ c.speaker.isSome ∧ c.endTime.isSome := by
      intro c hc
      refine ⟨(hte c hc).1, ?_, (hte c hc).2⟩
      simp only [List.mem_cons, List.not_mem_nil, or_false] at hc
      rcases hc with rfl | rfl | rfl | rfl
      · simp [hsp1]
      · simp [hsp2]
      · simp [hsp3]
      · simp [hsp4]
    rw [hmain _ hl]
    have hBA : ¬ (some B = some A) := by
      simp only [Option.some.injEq]
      exact fun h => hAB h.symm
    have hAB' : ¬ (some A = some B) := by
      simp only [Option.some.injEq]
      exact hAB
    simp only [specCollapse, specGo, hsp1, hsp2, hsp3, hsp4, if_pos rfl,
      if_neg hBA, if_neg hAB']
    rfl

/-- Witness for C5: a concrete `[A, A, B, A]` chunk list groups into
exactly three speaker groups. -/
theorem claim_C5_witness :
    (group_by_speaker
        [⟨"a".toList, some 0, some 1, some "A".toList⟩,
          ⟨"b".toList, some 1, some 2, some "A".toList⟩,
          ⟨"c".toList, some 2, some 3, some "B".toList⟩,
          ⟨"d".toList, some 3, some 4, some "A".toList⟩]).length = 3 :=
  claim_C5_speaker_grouping.2.2
    ⟨"a".toList, some 0, some 1, some "A".toList⟩
    ⟨"b".toList, some 1, some 2, some "A".toList⟩
    ⟨"c".toList, some 2, some 3, some "B".toList⟩
    ⟨"d".toList, some 3, some 4, some "A".toList⟩
    "A".toList "B".toList (by decide) (by decide) rfl rfl rfl rfl

/-- Claim C6 counterexample: a run whose single chunk *succeeds* but
returns whitespace-only text ends `failed` with the all-chunks-failed
reason, although no per-chunk transcription call failed — so "at least one
chunk succeeds" does not imply the job completes. -/
theorem claim_C6_counterexample :
    runChunkedJob [(0, 1, some " ".toList)] = .failed allChunksFailedMsg ∧
    (0, 1, some " ".toList).2.2 ≠ (none : Option PyStr) :=
  ⟨by decide, by decide⟩

/-- Claim C6 (amended): per-chunk failures are non-fatal — a failing chunk
is invisible to the collected results and the job continues; if at least
one chunk succeeds *with non-whitespace text*, the job completes with the
plain merge of the collected chunks; if every chunk either fails or
returns whitespace-only text, the job fails with the all-chunks-failed
reason. -/
theorem claim_C6_partial_failures :
    (∀ (xs ys : List ChunkResult) (s e : ℚ),
      transcribedChunks (xs ++ (s, e, none) :: ys) = transcribedChunks (xs ++ ys)) ∧
    (∀ rs : List ChunkResult,
      (∃ r ∈ rs, ∃ t, r.2.2 = some t ∧ pyStrip t ≠ []) →
      runChunkedJob rs =
        .completed (merge_transcriptions (transcribedChunks rs) false false)) ∧
    (∀ rs : List ChunkResult,
      (∀ r ∈ rs, ∀ t, r.2.2 = some t → pyStrip t = []) →
      runChunkedJob rs = .failed allChunksFailedMsg) := by
  refine ⟨?_, ?_, ?_⟩
  · intro xs ys s e
    simp [transcribedChunks, List.filterMap_append, List.filterMap_cons]
  · intro rs ⟨r, hr, t, ht, hts⟩
    have hmem : (⟨t, some r.1, some r.2.1, none⟩ : MergeChunk) ∈ transcribedChunks rs := by
      apply List.mem_filterMap.mpr
      exact ⟨r, hr, by rw [ht]; simp [hts]⟩
    have hne : transcribedChunks rs ≠ [] := List.ne_nil_of_mem hmem
    unfold runChunkedJob processChunkedTranscription
    rw [if_neg hne]
  · intro rs h
    have hnil : transcribedChunks rs = [] := by
      apply List.filterMap_eq_nil_iff.mpr
      intro r hr
      cases hre : r.2.2 with
      | none => simp [hre]
      | some t => simp [hre, h r hr t hre]
    unfold runChunkedJob processChunkedTranscription
    rw [if_pos hnil]

/-- Witness for C6: one good chunk, one whitespace-only chunk and one
failing chunk still complete, merging only the collected chunks. -/
theorem claim_C6_witness :
    runChunkedJob [(0, 1, some "hi".toList), (1, 2, none), (2, 3, some " ".toList)] =
      .completed (merge_transcriptions
        (transcribedChunks
          [(0, 1, some "hi".toList), (1, 2, none), (2, 3, some " ".toList)])
        false false) :=
  claim_C6_partial_failures.2.1 _
    ⟨(0, 1, some "hi".toList), by decide, "hi".toList, rfl, by decide⟩

theorem stepChain (base coef : ℤ) (n : ℕ) (hcoef : 0 ≤ coef) :
    List.Chain' (· ≤ ·)
      ((List.range n).map fun i : ℕ => base + coef * (i : ℤ) / (n : ℤ)) := by
  rw [List.chain'_map]
  cases n with
  | zero => simp
  | succ m =>
    rw [List.chain'_range_succ]
    intro i hi
    have hpos : (0 : ℤ) < ((m + 1 : ℕ) : ℤ) := by exact_mod_cast Nat.succ_pos m
    have hnum : coef * (i : ℤ) ≤ coef * ((i : ℤ) + 1) :=
      mul_le_mul_of_nonneg_left (by linarith) hcoef
    have hdiv := Int.ediv_le_ediv hpos hnum
    have hc : ((i + 1 : ℕ) : ℤ) = (i : ℤ) + 1 := by push_cast; ring
    simp only [Nat.succ_eq_add_one, hc]
    linarith [hdiv]

theorem step_lower (base coef : ℤ) (n i : ℕ) (hcoef : 0 ≤ coef) :
    base ≤ base + coef * (i : ℤ) / (n : ℤ) := by
  have : (0 : ℤ) ≤ coef * (i : ℤ) / (n : ℤ) :=
    Int.ediv_nonneg (mul_nonneg hcoef (by positivity)) (by positivity)
  linarith

theorem step_upper (base coef : ℤ) (n i : ℕ) (hn : n ≠ 0) (hcoef : 0 ≤ coef)
    (hi : i ≤ n) : base + coef * (i : ℤ) / (n : ℤ) ≤ base + coef := by
  have hpos : (0 : ℤ) < (n : ℤ) := by exact_mod_cast Nat.pos_of_ne_zero hn
  have hnum : coef * (i : ℤ) ≤ coef * (n : ℤ) :=
    mul_le_mul_of_nonneg_left (by exact_mod_cast hi) hcoef
  have hdiv := Int.ediv_le_ediv hpos hnum
  have hcan : coef * (n : ℤ) / (n : ℤ) = coef :=
    Int.mul_ediv_cancel coef (by exact_mod_cast hn)
  rw [hcan] at hdiv
  linarith

theorem chunkedProgressSeq_facts (n : ℕ) (hn : 1 ≤ n) :
    List.Chain' (· ≤ ·) (chunkedProgressSeq n) ∧
    ∀ x ∈ chunkedProgressSeq n, 0 ≤ x ∧ x ≤ 90 := by
  obtain ⟨m, hm⟩ : ∃ m, n = m + 1 := ⟨n - 1, by omega⟩
  constructor
  · unfold chunkedProgressSeq
    rw [List.chain'_append]
    refine ⟨by norm_num [List.chain'_cons], stepChain 20 70 n (by norm_num), ?_⟩
    intro x hx y hy
    have hx20 : (20 : ℤ) = x := by simpa using hx
    subst hx20
    rw [hm, List.range_succ_eq_map, List.map_cons, List.head?_cons] at hy
    have hy0 : 20 + 70 * ((0 : ℕ) : ℤ) / ((m + 1 : ℕ) : ℤ) = y := by simpa using hy
    rw [← hy0]
    simp
  · intro x hx
    unfold chunkedProgressSeq at hx
    rw [List.mem_append] at hx
    rcases hx with hx | hx
    · simp only [List.mem_cons, List.not_mem_nil, or_false] at hx
      rcases hx with rfl | rfl | rfl
      · exact ⟨by norm_num, by norm_num⟩
      · exact ⟨by norm_num, by norm_num⟩
      · exact ⟨by norm_num, by norm_num⟩
    · obtain ⟨i, hi, rfl⟩ := List.mem_map.mp hx
      rw [List.mem_range] at hi
      refine ⟨le_trans (by norm_num) (step_lower 20 70 n i (by norm_num)), ?_⟩
      have := step_upper 20 70 n i (by omega) (by norm_num) (le_of_lt hi)
      linarith

theorem diarProgressSeq_facts (n : ℕ) (hn : 1 ≤ n) :
    List.Chain' (· ≤ ·) (diarProgressSeq n) ∧
    ∀ x ∈ diarProgressSeq n, 0 ≤ x ∧ x ≤ 90 := by
  obtain ⟨m, hm⟩ : ∃ m, n = m + 1 := ⟨n - 1, by omega⟩
  constructor
  · unfold diarProgressSeq
    rw [List.chain'_append]
    refine ⟨by norm_num [List.chain'_cons], stepChain 30 60 n (by norm_num), ?_⟩
    intro x hx y hy
    have hx30 : (30 : ℤ) = x := by simpa using hx
    subst hx30
    rw [hm, List.range_succ_eq_map, List.map_cons, List.head?_cons] at hy
    have hy0 : 30 + 60 * ((0 : ℕ) : ℤ) / ((m + 1 : ℕ) : ℤ) = y := by simpa using hy
    rw [← hy0]
    simp
  · intro x hx
    unfold diarProgressSeq at hx
    rw [List.mem_append] at hx
    rcases hx with hx | hx
    · simp only [List.mem_cons, List.not_mem_nil, or_false] at hx
      rcases hx with rfl | rfl | rfl | rfl
      · exact ⟨by norm_num, by norm_num⟩
      · exact ⟨by norm_num, by norm_num⟩
      · exact ⟨by norm_num, by norm_num⟩
      · exact ⟨by norm_num, by norm_num⟩
    · obtain ⟨i, hi, rfl⟩ := List.mem_map.mp hx
      rw [List.mem_range] at hi
      refine ⟨le_trans (by norm_num) (step_lower 30 60 n i (by norm_num)), ?_⟩
      have := step_upper 30 60 n i (by omega) (by norm_num) (le_of_lt hi)
      linarith

theorem shortProgressSeq_facts :
    List.Chain' (· ≤ ·) shortProgressSeq ∧
    ∀ x ∈ shortProgressSeq, 0 ≤ x ∧ x ≤ 90 := by
  constructor
  · norm_num [shortProgressSeq, List.chain'_cons]
  · intro x hx
    simp only [shortProgressSeq, List.mem_cons, List.not_mem_nil, or_false] at hx
    rcases hx with rfl | rfl | rfl
    · exact ⟨by norm_num, by norm_num⟩
    · exact ⟨by norm_num, by norm_num⟩
    · exact ⟨by norm_num, by norm_num⟩

theorem processingProgress_successTrace (ps : List ℤ) (t : PyStr) :
    processingProgress (successTrace ps t) = ps := by
  unfold processingProgress successTrace
  rw [List.filter_append, List.filter_map]
  have h1 : ((fun r : JobRec => r.status == "processing".toList) ∘ procRec) =
      fun _ => true := by
    funext p
    rfl
  have h2 : List.filter (fun r : JobRec => r.status == "processing".toList)
      [completedRec t] = [] := rfl
  rw [h1, h2, List.filter_true, List.append_nil, List.map_map]
  have h3 : (JobRec.progress ∘ procRec) = id := by
    funext p
    rfl
  rw [h3, List.map_id]

theorem processingProgress_failureTrace (ps : List ℤ) (k : ℕ) (e : PyStr) :
    processingProgress (failureTrace ps k e) = ps.take k := by
  unfold processingProgress failureTrace
  rw [List.filter_append, List.filter_map]
  have h1 : ((fun r : JobRec => r.status == "processing".toList) ∘ procRec) =
      fun _ => true := by
    funext p
    rfl
  have h2 : List.filter (fun r : JobRec => r.status == "processing".toList)
      [failedRec none e] = [] := rfl
  rw [h1, h2, List.filter_true, List.append_nil, List.map_map]
  have h3 : (JobRec.progress ∘ procRec) = id := by
    funext p
    rfl
  rw [h3, List.map_id]

theorem successTrace_props (ps : List ℤ) (t : PyStr)
    (hchain : List.Chain' (· ≤ ·) ps) (hb : ∀ x ∈ ps, 0 ≤ x ∧ x ≤ 90) :
    List.Chain' (· ≤ ·) (processingProgress (successTrace ps t)) ∧
    (∀ r ∈ successTrace ps t, 0 ≤ r.progress ∧ r.progress ≤ 100) ∧
    (∀ r ∈ (successTrace ps t).dropLast, r.progress ≠ 100) ∧
    (∀ r ∈ successTrace ps t, r.progress = 100 →
      r.status = "completed".toList) := by
  refine ⟨by rw [processingProgress_successTrace]; exact hchain, ?_, ?_, ?_⟩
  · intro r hr
    rcases List.mem_append.mp hr with hr | hr
    · obtain ⟨p, hp, rfl⟩ := List.mem_map.mp hr
      have := hb p hp
      exact ⟨this.1, by simp only [procRec]; linarith [this.2]⟩
    · have : r = completedRec t := by simpa using hr
      subst this
      exact ⟨by norm_num [completedRec], by norm_num [completedRec]⟩
  · show ∀ r ∈ (ps.map procRec ++ [completedRec t]).dropLast, r.progress ≠ 100
    rw [List.dropLast_concat]
    intro r hr
    obtain ⟨p, hp, rfl⟩ := List.mem_map.mp hr
    have := (hb p hp).2
    simp only [procRec]
    omega
  · intro r hr
    rcases List.mem_append.mp hr with hr | hr
    · obtain ⟨p, hp, rfl⟩ := List.mem_map.mp hr
      have := (hb p hp).2
      intro h100
      simp only [procRec] at h100
      omega
    · have : r = completedRec t := by simpa using hr
      subst this
      intro _
      rfl

theorem failureTrace_props (ps : List ℤ) (k : ℕ) (e : PyStr)
    (hchain : List.Chain' (· ≤ ·) ps) (hb : ∀ x ∈ ps, 0 ≤ x ∧ x ≤ 90) :
    List.Chain' (· ≤ ·) (processingProgress (failureTrace ps k e)) ∧
    (∀ r ∈ failureTrace ps k e, 0 ≤ r.progress ∧ r.progress ≤ 100) ∧
    (∀ r ∈ (failureTrace ps k e).dropLast, r.progress ≠ 100) ∧
    (∀ r ∈ failureTrace ps k e, r.progress = 100 →
      r.status = "completed".toList) := by
  have hbt : ∀ x ∈ ps.take k, 0 ≤ x ∧ x ≤ 90 :=
    fun x hx => hb x (List.mem_of_mem_take hx)
  refine ⟨by rw [processingProgress_failureTrace]; exact hchain.take k, ?_, ?_, ?_⟩
  · intro r hr
    rcases List.mem_append.mp hr with hr | hr
    · obtain ⟨p, hp, rfl⟩ := List.mem_map.mp hr
      have := hbt p hp
      exact ⟨this.1, by simp only [procRec]; linarith [this.2]⟩
    · have : r = failedRec none e := by simpa using hr
      subst this
      exact ⟨by norm_num [failedRec], by norm_num [failedRec]⟩
  · show ∀ r ∈ ((ps.take k).map procRec ++ [failedRec none e]).dropLast,
      r.progress ≠ 100
    rw [List.dropLast_concat]
    intro r hr
    obtain ⟨p, hp, rfl⟩ := List.mem_map.mp hr
    have := (hbt p hp).2
    simp only [procRec]
    omega
  · intro r hr
    rcases List.mem_append.mp hr with hr | hr
    · obtain ⟨p, hp, rfl⟩ := List.mem_map.mp hr
      have := (hbt p hp).2
      intro h100
      simp only [procRec] at h100
      omega
    · have : r = failedRec none e := by simpa using hr
      subst this
      intro h100
      simp [failedRec] at h100

/-- Claim C8: in every commit sequence the task can produce, the progress
values observed while the record reports `processing` are monotonically
non-decreasing; every committed progress lies in `[0, 100]`; no commit
before the terminal one carries progress 100; and a commit with progress
100 is always the terminal `completed` commit. -/
theorem claim_C8_progress_monotone (n : ℕ) (hn : 1 ≤ n) (t e : PyStr) (k : ℕ) :
    ∀ T ∈ jobTraces n t e k,
      List.Chain' (· ≤ ·) (processingProgress T) ∧
      (∀ r ∈ T, 0 ≤ r.progress ∧ r.progress ≤ 100) ∧
      (∀ r ∈ T.dropLast, r.progress ≠ 100) ∧
      (∀ r ∈ T, r.progress = 100 → r.status = "completed".toList) := by
  intro T hT
  have hcf := chunkedProgressSeq_facts n hn
  have hdf := diarProgressSeq_facts n hn
  have hsf := shortProgressSeq_facts
  simp only [jobTraces, List.mem_cons, List.not_mem_nil, or_false] at hT
  rcases hT with rfl | rfl | rfl | rfl | rfl | rfl
  · exact successTrace_props _ t hcf.1 hcf.2
  · exact successTrace_props _ t hdf.1 hdf.2
  · exact successTrace_props _ t hsf.1 hsf.2
  · exact failureTrace_props _ k e hcf.1 hcf.2
  · exact failureTrace_props _ k e hdf.1 hdf.2
  · exact failureTrace_props _ k e hsf.1 hsf.2

/-- Witness for C8: the two-chunk success trace satisfies all the
progress conditions. -/
theorem claim_C8_witness :
    List.Chain' (· ≤ ·)
      (processingProgress (successTrace (chunkedProgressSeq 2) "hi".toList)) ∧
    (∀ r ∈ successTrace (chunkedProgressSeq 2) "hi".toList,
      0 ≤ r.progress ∧ r.progress ≤ 100) ∧
    (∀ r ∈ (successTrace (chunkedProgressSeq 2) "hi".toList).dropLast,
      r.progress ≠ 100) ∧
    (∀ r ∈ successTrace (chunkedProgressSeq 2) "hi".toList,
      r.progress = 100 → r.status = "completed".toList) :=
  claim_C8_progress_monotone 2 (by norm_num) "hi".toList "e".toList 1
    (successTrace (chunkedProgressSeq 2) "hi".toList)
    (by simp [jobTraces])

/-- Claim C7 counterexample: the terminal commit of a failed run carries
*both* a set error message and a non-empty `text` — the
`[TRANSCRIPTION FAILED]` placeholder — so a set error is not mutually
exclusive with a non-empty text, and a failed job does carry non-empty
text. -/
theorem claim_C7_counterexample :
    (failureTrace shortProgressSeq 3 "boom".toList).getLast? =
        some (failedRec none "boom".toList) ∧
    (failedRec none "boom".toList).status = "failed".toList ∧
    (failedRec none "boom".toList).errorMsg = some "boom".toList ∧
    (failedRec none "boom".toList).text =
      some (placeholderText "boom".toList) ∧
    pyStrip (placeholderText "boom".toList) ≠ [] :=
  ⟨by decide, rfl, rfl, by decide, by decide⟩

/-- Claim C7 (amended): across every commit the pipeline makes, the error
field is set only on `failed` commits; in a successful run the transcript
text is absent from every commit except the terminal `completed` one,
which writes the merged text, progress 100 and a cleared error atomically;
but in a failed run the terminal commit sets the error *and* stores a
non-empty `[TRANSCRIPTION FAILED]` placeholder into `text` (preserving any
existing non-blank transcript), so `failed` and non-empty `text` coexist. -/
theorem claim_C7_error_text_discipline :
    (∀ (n : ℕ) (t e : PyStr) (k : ℕ), ∀ T ∈ jobTraces n t e k, ∀ r ∈ T,
      r.errorMsg ≠ none → r.status = "failed".toList) ∧
    (∀ (ps : List ℤ) (t : PyStr),
      (∀ r ∈ (successTrace ps t).dropLast, r.text = none) ∧
      (successTrace ps t).getLast? = some (completedRec t)) ∧
    (∀ (ps : List ℤ) (k : ℕ) (e : PyStr),
      (∀ r ∈ (failureTrace ps k e).dropLast, r.text = none) ∧
      (failureTrace ps k e).getLast? = some (failedRec none e) ∧
      (failedRec none e).errorMsg = some e ∧
      (failedRec none e).text = some (placeholderText e) ∧
      placeholderText e ≠ []) := by
  refine ⟨?_, ?_, ?_⟩
  · intro n t e k T hT r hr herr
    simp only [jobTraces, List.mem_cons, List.not_mem_nil, or_false] at hT
    have hsucc : ∀ (ps : List ℤ), r ∈ successTrace ps t →
        r.errorMsg ≠ none → r.status = "failed".toList := by
      intro ps hmem h
      rcases List.mem_append.mp hmem with hm | hm
      · obtain ⟨p, _, rfl⟩ := List.mem_map.mp hm
        exact absurd rfl h
      · have : r = completedRec t := by simpa using hm
        subst this
        exact absurd rfl h
    have hfail : ∀ (ps : List ℤ), r ∈ failureTrace ps k e →
        r.status = "failed".toList := by
      intro ps hmem
      rcases List.mem_append.mp hmem with hm | hm
      · obtain ⟨p, _, rfl⟩ := List.mem_map.mp hm
        exact absurd rfl herr
      · have : r = failedRec none e := by simpa using hm
        subst this
        rfl
    rcases hT with rfl | rfl | rfl | rfl | rfl | rfl
    · exact hsucc _ hr herr
    · exact hsucc _ hr herr
    · exact hsucc _ hr herr
    · exact hfail _ hr
    · exact hfail _ hr
    · exact hfail _ hr
  · intro ps t
    constructor
    · show ∀ r ∈ (ps.map procRec ++ [completedRec t]).dropLast, r.text = none
      rw [List.dropLast_concat]
      intro r hr
      obtain ⟨p, _, rfl⟩ := List.mem_map.mp hr
      rfl
    · exact List.getLast?_concat _
  · intro ps k e
    refine ⟨?_, List.getLast?_concat _, rfl, rfl, ?_⟩
    · show ∀ r ∈ ((ps.take k).map procRec ++ [failedRec none e]).dropLast,
        r.text = none
      rw [List.dropLast_concat]
      intro r hr
      obtain ⟨p, _, rfl⟩ := List.mem_map.mp hr
      rfl
    · simp [placeholderText]

/-- Witness for C7: the failed short-path run with error `"x"` ends in the
failed commit carrying both the error and the non-empty placeholder. -/
theorem claim_C7_witness :
    (∀ r ∈ (failureTrace shortProgressSeq 2 "x".toList).dropLast, r.text = none) ∧
    (failureTrace shortProgressSeq 2 "x".toList).getLast? =
      some (failedRec none "x".toList) ∧
    (failedRec none "x".toList).errorMsg = some "x".toList ∧
    (failedRec none "x".toList).text = some (placeholderText "x".toList) ∧
    placeholderText "x".toList ≠ [] :=
  claim_C7_error_text_discipline.2.2 shortProgressSeq 2 "x".toList

/-- Claim C9 counterexample: a response that cannot be normalized is not
treated as an empty transcript — the integer-like response `42` falls back
to `str(response) = "42"`, a non-blank transcript; and the JSON string
response with a non-string `"text"` value yields that value (here the
number `5`), not a plain string. -/
theorem claim_C9_counterexample :
    extract_transcription_text (.pyNum "42".toList) = .pyStr "42".toList ∧
    pyStrip "42".toList ≠ [] ∧
    extract_transcription_text
        (.pyDict [("text".toList, .pyNum "5".toList)]) =
      .pyNum "5".toList :=
  ⟨rfl, by decide, rfl⟩

/-- Claim C9 (amended): `extract_transcription_text` is a total function
(it never raises) with this branch behavior: a plain string is returned
as-is unless it parses as a JSON object with a `"text"` key, in which case
that key's value is returned converted to its Python form (of whatever
type, not necessarily a string); objects with a `.text` attribute return
that attribute; dicts and pydantic `model_dump()` dicts with a `'text'`
key return that value; every other response is converted with
`str(response)` and used as the transcript — not treated as empty. -/
theorem claim_C9_extract_normalization :
    (∀ (s : PyStr) (fields : List (List Char × JsonValue)) (v : JsonValue),
      json_loads s = some (.obj fields) →
      lookupLast fields "text".toList = some v →
      extract_transcription_text (.pyStr s) = jsonToPy v) ∧
    (∀ (s : PyStr) (fields : List (List Char × JsonValue)),
      json_loads s = some (.obj fields) →
      lookupLast fields "text".toList = none →
      extract_transcription_text (.pyStr s) = .pyStr s) ∧
    (∀ (s : PyStr) (v : JsonValue), json_loads s = some v →
      (∀ fields, v ≠ .obj fields) →
      extract_transcription_text (.pyStr s) = .pyStr s) ∧
    (∀ s : PyStr, json_loads s = none →
      extract_transcription_text (.pyStr s) = .pyStr s) ∧
    (∀ (t : PyObj) (r : List Char),
      extract_transcription_text (.textObj t r) = t) ∧
    (∀ (fields : List (List Char × PyObj)) (v : PyObj),
      lookupLast fields "text".toList = some v →
      extract_transcription_text (.pyDict fields) = v) ∧
    (∀ fields : List (List Char × PyObj),
      lookupLast fields "text".toList = none →
      extract_transcription_text (.pyDict fields) =
        .pyStr (pyStrOf (.pyDict fields))) ∧
    (∀ (fields : List (List Char × PyObj)) (r : List Char) (v : PyObj),
      lookupLast fields "text".toList = some v →
      extract_transcription_text (.pydantic fields r) = v) ∧
    (∀ (fields : List (List Char × PyObj)) (r : List Char),
      lookupLast fields "text".toList = none →
      extract_transcription_text (.pydantic fields r) =
        .pyStr (pyStrOf (.pydantic fields r))) ∧
    (extract_transcription_text .pyNone = .pyStr (pyStrOf .pyNone)) ∧
    (∀ b : Bool,
      extract_transcription_text (.pyBool b) = .pyStr (pyStrOf (.pyBool b))) ∧
    (∀ lex : List Char, extract_transcription_text (.pyNum lex) = .pyStr lex) ∧
    (∀ items : List PyObj, extract_transcription_text (.pyList items) =
      .pyStr (pyStrOf (.pyList items))) ∧
    (∀ r : List Char, extract_transcription_text (.otherObj r) = .pyStr r) := by
  refine ⟨?_, ?_, ?_, ?_, fun t r => rfl, ?_, ?_, ?_, ?_, rfl, fun b => rfl,
    fun lex => rfl, fun items => rfl, fun r => rfl⟩
  · intro s fields v hj hl
    rw [show "text".toList = ('t' :: 'e' :: 'x' :: 't' :: ([] : List Char))
      from rfl] at hl
    simp only [extract_transcription_text, hj, hl]
  · intro s fields hj hl
    rw [show "text".toList = ('t' :: 'e' :: 'x' :: 't' :: ([] : List Char))
      from rfl] at hl
    simp only [extract_transcription_text, hj, hl]
  · intro s v hj hne
    cases v with
    | obj fields => exact absurd rfl (hne fields)
    | null => simp only [extract_transcription_text, hj]
    | bool b => simp only [extract_transcription_text, hj]
    | num l => simp only [extract_transcription_text, hj]
    | str s' => simp only [extract_transcription_text, hj]
    | arr items => simp only [extract_transcription_text, hj]
  · intro s hj
    simp only [extract_transcription_text, hj]
  · intro fields v hl
    rw [show "text".toList = ('t' :: 'e' :: 'x' :: 't' :: ([] : List Char))
      from rfl] at hl
    simp only [extract_transcription_text, hl]
  · intro fields hl
    rw [show "text".toList = ('t' :: 'e' :: 'x' :: 't' :: ([] : List Char))
      from rfl] at hl
    simp only [extract_transcription_text, hl]
  · intro fields r v hl
    rw [show "text".toList = ('t' :: 'e' :: 'x' :: 't' :: ([] : List Char))
      from rfl] at hl
    simp only [extract_transcription_text, hl]
  · intro fields r hl
    rw [show "text".toList = ('t' :: 'e' :: 'x' :: 't' :: ([] : List Char))
      from rfl] at hl
    simp only [extract_transcription_text, hl]

/-- Witness for C9: the JSON object response with a string `"text"` value
normalizes to that string. -/
theorem claim_C9_witness :
    extract_transcription_text
        (.pyStr "\x7b\"text\": \"hi\"\x7d".toList) =
      jsonToPy (.str "hi".toList) :=
  claim_C9_extract_normalization.1 "\x7b\"text\": \"hi\"\x7d".toList
    [("text".toList, .str "hi".toList)] (.str "hi".toList) rfl rfl

end EchoNote
